import Mathlib

/-
  Verification of the ScaleFS core against its specification.

  Shallow embedding of the relevant parts of src/kernel/scalefs.cc and
  src/kernel/fs.cc. Machine integers are modelled as Nat, with explicit
  mod 2^32 where 32-bit overflow matters. Code paths that call panic or
  throw are modelled with Option (none = panic / exception).
-/

namespace ScaleFS

/-- Modelled from the spec: BSIZE is the 4 KiB disk-block size (the header
fs.h defining it is not among the sources; the spec fixes blocks at 4 KiB). -/
def BSIZE : Nat := 4096

/-! ## Free-block allocator (mfs_interface in scalefs.cc)

The in-memory free-bit state of mfs_interface: free_bit_vector keeps one
is_free flag per block number, and free_bit_freelist is the list of
currently free bits (head = front). The superblock size field is carried
along because alloc_block reads it in the out-of-blocks case. -/

structure FreeBitState where
  isFree : Nat → Bool
  freelist : List Nat
  sbSize : Nat

/-- Embeds mfs_interface::alloc_block (scalefs.cc:1516). If the freelist is
nonempty, take the head bit, assert it is free (none models the failed
assert), mark it not free and remove it from the list; otherwise return the
superblock size field as the out-of-blocks value, leaving the state alone. -/
def alloc_block (s : FreeBitState) : Option (Nat × FreeBitState) :=
  match s.freelist with
  | [] => some (s.sbSize, s)
  | b :: rest =>
    if s.isFree b then
      some (b, ⟨fun x => if x = b then false else s.isFree x, rest, s.sbSize⟩)
    else
      none

/-- Embeds mfs_interface::free_block (scalefs.cc:1545). Freeing a block that
is already free panics (none); otherwise the bit is marked free and pushed
onto the front of the freelist. -/
def free_block (bno : Nat) (s : FreeBitState) : Option FreeBitState :=
  if s.isFree bno then
    none
  else
    some ⟨fun x => if x = bno then true else s.isFree x, bno :: s.freelist, s.sbSize⟩

/-- The freelist invariant of the spec: a bit marked free appears exactly
once in the freelist, and a bit not marked free does not appear in it. -/
def FreelistInv (s : FreeBitState) : Prop :=
  ∀ b, s.freelist.count b = if s.isFree b then 1 else 0

/-- Embeds bfree (fs.cc:143) for dev 1 with a transaction present: with
delayed_free the in-memory state is untouched and the block is only recorded
in the free_block_list of the transaction; without it, free_block runs and
the block is recorded as well. -/
def bfree (delayedFree : Bool) (bno : Nat) (s : FreeBitState) (freeBlockList : List Nat) :
    Option (FreeBitState × List Nat) :=
  if delayedFree then
    some (s, freeBlockList ++ [bno])
  else
    match free_block bno s with
    | none => none
    | some s2 => some (s2, freeBlockList ++ [bno])

/-- Embeds mfs_interface::post_process_transaction (scalefs.cc:966): call
free_block once for each entry of the free_block_list of the transaction,
front to back. -/
def post_process_transaction (freeBlockList : List Nat) (s : FreeBitState) :
    Option FreeBitState :=
  freeBlockList.foldlM (fun st b => free_block b st) s

/-- Claim C2: alloc_block pops the head free bit off a nonempty freelist,
clears its is_free flag and returns its block number; on an empty freelist it
returns the superblock size field as the out-of-blocks value. The nonempty
case assumes the head bit is marked free, which is what the assert in the
source checks. -/
theorem alloc_block_spec (s : FreeBitState) :
    (s.freelist = [] → alloc_block s = some (s.sbSize, s)) ∧
    (∀ b rest, s.freelist = b :: rest → s.isFree b = true →
      alloc_block s =
        some (b, ⟨fun x => if x = b then false else s.isFree x, rest, s.sbSize⟩)) := by
  constructor
  · intro h
    simp [alloc_block, h]
  · intro b rest h hb
    simp [alloc_block, h, hb]

theorem alloc_block_spec_witness :
    alloc_block ⟨fun _ => true, [7, 8], 42⟩ =
      some (7, ⟨fun x => if x = 7 then false else true, [8], 42⟩) := by
  have h := (alloc_block_spec ⟨fun _ => true, [7, 8], 42⟩).2 7 [8] rfl rfl
  exact h

/-- Claim C10: free_block panics (none) when the bit is already free; when it
is allocated, it marks the bit free and pushes it on the front of the
freelist exactly once, and this preserves the invariant that a free bit
appears exactly once in the freelist. -/
theorem free_block_safe (s : FreeBitState) (bno : Nat) :
    (s.isFree bno = true → free_block bno s = none) ∧
    (s.isFree bno = false →
      free_block bno s =
        some ⟨fun x => if x = bno then true else s.isFree x, bno :: s.freelist, s.sbSize⟩ ∧
      (FreelistInv s →
        FreelistInv ⟨fun x => if x = bno then true else s.isFree x,
                     bno :: s.freelist, s.sbSize⟩)) := by
  constructor
  · intro h
    simp [free_block, h]
  · intro h
    constructor
    · simp [free_block, h]
    · intro hinv b
      have hb := hinv b
      by_cases heq : b = bno
      · subst heq
        simp [List.count_cons, hb, h]
      · simp [List.count_cons, hb, heq]

theorem free_block_safe_witness :
    (free_block 3 ⟨fun x => x = 3, [3], 9⟩ = none) ∧
    (free_block 4 ⟨fun x => x = 3, [3], 9⟩ =
      some ⟨fun x => if x = 4 then true else decide (x = 3), 4 :: [3], 9⟩) := by
  refine ⟨(free_block_safe ⟨fun x => x = 3, [3], 9⟩ 3).1 (by simp),
          ((free_block_safe ⟨fun x => x = 3, [3], 9⟩ 4).2 (by simp)).1⟩

/-- Helper: post_process_transaction over a duplicate-free list of blocks
that are all currently allocated frees each of them once and pushes each onto
the freelist once. -/
theorem post_process_transaction_eq (l : List Nat) :
    ∀ s : FreeBitState, l.Nodup → (∀ b ∈ l, s.isFree b = false) →
      post_process_transaction l s =
        some ⟨fun x => l.contains x || s.isFree x, l.reverse ++ s.freelist, s.sbSize⟩ := by
  induction l with
  | nil =>
    intro s _ _
    simp [post_process_transaction]
  | cons b t ih =>
    intro s hnd hall
    have hb : s.isFree b = false := hall b (by simp)
    have hstep : free_block b s =
        some ⟨fun x => if x = b then true else s.isFree x, b :: s.freelist, s.sbSize⟩ := by
      simp [free_block, hb]
    have hnd2 : t.Nodup := (List.nodup_cons.mp hnd).2
    have hnotmem : b ∉ t := (List.nodup_cons.mp hnd).1
    have hall2 : ∀ c ∈ t, (if c = b then true else s.isFree c) = false := by
      intro c hc
      have hcb : c ≠ b := by
        intro hcbe
        exact hnotmem (hcbe ▸ hc)
      simp [hcb, hall c (List.mem_cons_of_mem b hc)]
    have := ih ⟨fun x => if x = b then true else s.isFree x, b :: s.freelist, s.sbSize⟩ hnd2 hall2
    have hfold : post_process_transaction (b :: t) s =
        post_process_transaction t
          ⟨fun x => if x = b then true else s.isFree x, b :: s.freelist, s.sbSize⟩ := by
      simp [post_process_transaction, hstep]
    rw [hfold, this]
    have hfun : ∀ x, (t.contains x || if x = b then true else s.isFree x) =
        ((b :: t).contains x || s.isFree x) := by
      intro x
      by_cases hx : x = b
      · subst hx
        simp [List.contains_cons]
      · simp [List.contains_cons, hx]
    have hlist : t.reverse ++ b :: s.freelist = (b :: t).reverse ++ s.freelist := by
      simp
    apply congrArg some
    dsimp only
    rw [funext hfun, hlist]

/-- Claim C3: a block freed with delayed_free (the mode itrunc uses) is
neither marked free in the in-memory free-bit-vector nor pushed onto the
freelist by bfree itself; it is only recorded in the free_block_list of the
transaction. When post_process_transaction later runs, it calls free_block
exactly once per recorded block: each block of a duplicate-free
free_block_list of allocated blocks ends up marked free and on the freelist
exactly once. -/
theorem bfree_delayed_until_post_process (bno : Nat) (s : FreeBitState)
    (tr : List Nat) (l : List Nat) :
    (bfree true bno s tr = some (s, tr ++ [bno])) ∧
    (l.Nodup → (∀ b ∈ l, s.isFree b = false) →
      post_process_transaction l s =
        some ⟨fun x => l.contains x || s.isFree x, l.reverse ++ s.freelist, s.sbSize⟩) := by
  constructor
  · simp [bfree]
  · intro hnd hall
    exact post_process_transaction_eq l s hnd hall

theorem bfree_delayed_until_post_process_witness :
    (bfree true 2 ⟨fun _ => false, [], 10⟩ [5] = some (⟨fun _ => false, [], 10⟩, [5, 2])) ∧
    (post_process_transaction [2, 3] ⟨fun _ => false, [], 10⟩ =
      some ⟨fun x => [2, 3].contains x || false, [3, 2], 10⟩) := by
  have h := bfree_delayed_until_post_process 2 ⟨fun _ => false, [], 10⟩ [5] [2, 3]
  exact ⟨h.1, h.2 (by decide) (fun b _ => rfl)⟩

/-! ## Deferred inode reclaim (scalefs.cc:1621) -/

/-- Embeds mfs_interface::defer_inode_reclaim. The reclaim_inodes array of
the superblock is modelled as the list of its first num_reclaim_inodes
entries, so num_reclaim_inodes is the length of the list; the capacity
NRECLAIM_INODES (a header constant not among the sources) is a parameter.
When the array is full the call only warns and drops the request; otherwise
the inum is appended and the counter incremented. -/
def defer_inode_reclaim (nreclaim : Nat) (reclaimInodes : List Nat) (inum : Nat) :
    List Nat :=
  if nreclaim ≤ reclaimInodes.length then
    reclaimInodes
  else
    reclaimInodes ++ [inum]

/-- Claim C8: defer_inode_reclaim preserves num_reclaim_inodes at most
NRECLAIM_INODES; below the limit it appends the inum and increments the
counter, and at (or above) the limit it leaves the superblock unchanged. -/
theorem defer_inode_reclaim_spec (nreclaim : Nat) (sbList : List Nat) (inum : Nat) :
    (sbList.length ≤ nreclaim → (defer_inode_reclaim nreclaim sbList inum).length ≤ nreclaim) ∧
    (sbList.length < nreclaim → defer_inode_reclaim nreclaim sbList inum = sbList ++ [inum]) ∧
    (nreclaim ≤ sbList.length → defer_inode_reclaim nreclaim sbList inum = sbList) := by
  refine ⟨?_, ?_, ?_⟩
  · intro h
    by_cases hfull : nreclaim ≤ sbList.length
    · simp [defer_inode_reclaim, hfull]
      omega
    · simp [defer_inode_reclaim, hfull]
      omega
  · intro h
    have : ¬ nreclaim ≤ sbList.length := by omega
    simp [defer_inode_reclaim, this]
  · intro h
    simp [defer_inode_reclaim, h]

theorem defer_inode_reclaim_spec_witness :
    ((defer_inode_reclaim 2 [5] 7).length ≤ 2) ∧
    (defer_inode_reclaim 2 [5] 7 = [5] ++ [7]) ∧
    (defer_inode_reclaim 2 [5, 7] 9 = [5, 7]) :=
  ⟨(defer_inode_reclaim_spec 2 [5] 7).1 (by decide),
   (defer_inode_reclaim_spec 2 [5] 7).2.1 (by decide),
   (defer_inode_reclaim_spec 2 [5, 7] 9).2.2 (by decide)⟩

/-! ## Journal space check and the flush loop (scalefs.cc:1213, 1059)

PHYS_JOURNAL_SIZE and sizeof(journal_block_header) are header constants not
among the sources, so both are parameters (phys and hdr). -/

/-- Embeds mfs_interface::fits_in_journal: the start block of the container
transaction is already in the journal at the current offset, so the check is
whether offset plus (hdr + BSIZE) * (1 + n) bytes, for the n data blocks and
one commit block, stays within phys. -/
def fits_in_journal (phys hdr offset n : Nat) : Bool :=
  if phys < offset + (hdr + BSIZE) * (1 + n) then
    false
  else
    true

/-- Embeds the journal-space control flow of
mfs_interface::flush_journal_locked, abstracted to the per-sub-transaction
block counts. A sub-transaction that fits is batched without moving the
journal offset (blocks are only accumulated in prune_trans); otherwise the
batch is committed, applied and the journal reset, after which the offset is
the size of the freshly written start block (hdr + BSIZE) and the same
sub-transaction is retried. The result counts the retry (commit-apply-reset)
cycles; none models the livelock when a sub-transaction can never fit. -/
def flushJournalLoop (phys hdr : Nat) : Nat → List Nat → Option Nat
  | _, [] => some 0
  | offset, n :: rest =>
    if fits_in_journal phys hdr offset n then
      flushJournalLoop phys hdr offset rest
    else if fits_in_journal phys hdr (hdr + BSIZE) n then
      (flushJournalLoop phys hdr (hdr + BSIZE) rest).map (· + 1)
    else
      none

/-- Claim C7: fits_in_journal accepts exactly when offset plus
(hdr + BSIZE) * (n + 1) is at most PHYS_JOURNAL_SIZE, so a sub-transaction
filling the journal exactly to PHYS_JOURNAL_SIZE is accepted and the flush
loop commits it with zero retry cycles. -/
theorem fits_in_journal_spec (phys hdr offset n : Nat) :
    (fits_in_journal phys hdr offset n = true ↔
      offset + (hdr + BSIZE) * (n + 1) ≤ phys) ∧
    (offset + (hdr + BSIZE) * (n + 1) = phys →
      flushJournalLoop phys hdr offset [n] = some 0) := by
  have hiff : fits_in_journal phys hdr offset n = true ↔
      offset + (hdr + BSIZE) * (n + 1) ≤ phys := by
    have hc : (hdr + BSIZE) * (1 + n) = (hdr + BSIZE) * (n + 1) := by ring
    unfold fits_in_journal
    rw [hc]
    rcases Nat.lt_or_ge phys (offset + (hdr + BSIZE) * (n + 1)) with h | h
    · rw [if_pos h]
      exact Iff.intro (fun hf => (Bool.false_ne_true hf).elim)
        (fun hle => absurd hle (Nat.not_le.mpr h))
    · rw [if_neg (Nat.not_lt.mpr h)]
      exact ⟨fun _ => h, fun _ => rfl⟩
  refine ⟨hiff, ?_⟩
  intro hfill
  have hfits : fits_in_journal phys hdr offset n = true := hiff.mpr (le_of_eq hfill)
  simp [flushJournalLoop, hfits]

theorem fits_in_journal_spec_witness :
    (fits_in_journal 12384 32 4128 1 = true) ∧
    (flushJournalLoop 12384 32 4128 [1] = some 0) :=
  ⟨(fits_in_journal_spec 12384 32 4128 1).1.mpr (by norm_num [BSIZE]),
   (fits_in_journal_spec 12384 32 4128 1).2 (by norm_num [BSIZE])⟩

/-! ## Crash recovery (mfs_interface::process_journal, scalefs.cc:1287)

The journal file is modelled at record granularity: each loop iteration of
process_journal reads one header plus one 4 KiB payload. A record is a
jrnl_start, jrnl_data or jrnl_commit header (payloads are abstracted to a
Nat identifier), the all-zero header that marks the end of the log, or a
header with an unknown block_type (the switch default). A short read ends
the scan exactly like the end of the record list. -/

inductive JRecord where
  | start (ts : Nat)
  | data (ts bno payload : Nat)
  | commit (ts : Nat)
  | zero
  | other
deriving DecidableEq

/-- Embeds the scan loop of process_journal. State: the records still to
read, current_transaction (initially 0), block_vec, and the accumulated
blocks of the recovery transaction (trans). Returns the accumulated blocks
and the jrnl_error flag. A data or commit header whose timestamp does not
match current_transaction, or an unknown header type, stops the scan with
jrnl_error set; a zero header or the end of the records stops it cleanly. -/
def processJournalLoop : List JRecord → Nat → List (Nat × Nat) → List (Nat × Nat) →
    List (Nat × Nat) × Bool
  | [], _, _, acc => (acc, false)
  | JRecord.zero :: _, _, _, acc => (acc, false)
  | JRecord.start ts :: rest, _, _, acc => processJournalLoop rest ts [] acc
  | JRecord.data ts bno payload :: rest, cur, vec, acc =>
    if ts = cur then
      processJournalLoop rest cur (vec ++ [(bno, payload)]) acc
    else
      (acc, true)
  | JRecord.commit ts :: rest, cur, vec, acc =>
    if ts = cur then
      processJournalLoop rest cur [] (acc ++ vec)
    else
      (acc, true)
  | JRecord.other :: _, _, _, acc => (acc, true)

/-- Embeds process_journal: run the scan loop from offset 0 and, only when
jrnl_error stayed false, write the accumulated blocks to their home
locations (write_to_disk_update_bufcache); on jrnl_error nothing at all is
applied. The result is the list of (blocknum, payload) home writes. -/
def process_journal (recs : List JRecord) : List (Nat × Nat) :=
  if (processJournalLoop recs 0 [] []).2 then
    []
  else
    (processJournalLoop recs 0 [] []).1

/-- Counterexample to claim C1 as stated: in a journal holding one fully
committed transaction followed by a corrupted record, the committed
transaction is NOT applied to home locations: process_journal applies
nothing, although the same journal without the bad record does apply it. -/
theorem process_journal_committed_prefix_dropped :
    process_journal
        [JRecord.start 1, JRecord.data 1 5 99, JRecord.commit 1, JRecord.other] = [] ∧
    (5, 99) ∉ process_journal
        [JRecord.start 1, JRecord.data 1 5 99, JRecord.commit 1, JRecord.other] ∧
    process_journal
        [JRecord.start 1, JRecord.data 1 5 99, JRecord.commit 1, JRecord.zero] = [(5, 99)] := by
  refine ⟨rfl, ?_, rfl⟩
  intro h
  simp [process_journal, processJournalLoop] at h

/-- Claim C1 as amended: on a corrupted record (jrnl_data or jrnl_commit
with a mismatched timestamp, or an unknown header type) process_journal
stops scanning at that record, discarding the uncommitted block vector, and
applies nothing at all to home locations: the transactions committed before
the bad record are discarded too, and committed transactions are applied
only when the scan ends cleanly at a zero header or at the end of the
journal. -/
theorem process_journal_abort_spec (recs rest : List JRecord)
    (cur ts bno payload : Nat) (vec acc : List (Nat × Nat)) :
    ((processJournalLoop recs 0 [] []).2 = true → process_journal recs = []) ∧
    ((processJournalLoop recs 0 [] []).2 = false →
      process_journal recs = (processJournalLoop recs 0 [] []).1) ∧
    (ts ≠ cur →
      processJournalLoop (JRecord.data ts bno payload :: rest) cur vec acc = (acc, true)) ∧
    (ts ≠ cur →
      processJournalLoop (JRecord.commit ts :: rest) cur vec acc = (acc, true)) ∧
    (processJournalLoop (JRecord.other :: rest) cur vec acc = (acc, true)) := by
  refine ⟨?_, ?_, ?_, ?_, ?_⟩
  · intro h
    simp [process_journal, h]
  · intro h
    simp [process_journal, h]
  · intro h
    simp [processJournalLoop, h]
  · intro h
    simp [processJournalLoop, h]
  · simp [processJournalLoop]

theorem process_journal_abort_spec_witness :
    process_journal [JRecord.start 1, JRecord.data 1 5 99, JRecord.commit 1,
      JRecord.data 2 6 100] = [] ∧
    processJournalLoop [JRecord.data 2 6 100] 1 [] [(5, 99)] = ([(5, 99)], true) := by
  have h := process_journal_abort_spec
    [JRecord.start 1, JRecord.data 1 5 99, JRecord.commit 1, JRecord.data 2 6 100]
    [] 1 2 6 100 [] [(5, 99)]
  exact ⟨h.1 (by decide), h.2.2.1 (by decide)⟩

/-! ## writei (fs.cc:936)

The arguments off and n are u32, so sums wrap at 2^32. MAXFILE * BSIZE (the
file-size cap; MAXFILE comes from the header fs.h, not among the sources) is
the parameter maxbytes. Block allocation (bmap / balloc) is abstracted by an
oracle alloc: alloc i says whether allocating for file-block index i
succeeds; alloc i = false models the out_of_blocks exception. The payload
bytes are irrelevant to the claims and are dropped. -/

def U32 : Nat := 4294967296

/-- Embeds the clamping prelude of writei: if off + n (computed in u32)
exceeds MAXFILE * BSIZE, n becomes MAXFILE * BSIZE - off, again in u32
arithmetic. -/
def writei_clamped_n (maxbytes off n : Nat) : Nat :=
  if maxbytes < (off + n) % U32 then
    (((maxbytes : Int) - (off : Int)) % (U32 : Int)).toNat
  else
    n

/-- Embeds the copy loop of writei. Each iteration writes
m = min (n - tot, BSIZE - off % BSIZE) bytes into the block at file-block
index off / BSIZE; when allocation throws out_of_blocks, tot is forced to -1
if nothing was written yet and the loop breaks. Returns the return value of
writei, the bytes written when the loop ended, and whether out_of_blocks was
hit. -/
def writeiLoop (alloc : Nat → Bool) (n off tot : Nat) : Int × Nat × Bool :=
  if h : tot < n then
    let m := min (n - tot) (BSIZE - off % BSIZE)
    if alloc (off / BSIZE) then
      writeiLoop alloc n (off + m) (tot + m)
    else
      (if tot = 0 then (-1 : Int) else (tot : Int), tot, true)
  else
    ((tot : Int), tot, false)
termination_by n - tot
decreasing_by
  simp_wf
  have hB : BSIZE = 4096 := rfl
  have hmod : off % BSIZE < BSIZE := Nat.mod_lt off (by rw [hB]; omega)
  omega

/-- Embeds writei for a device-1 inode: the T_DEV check, the u32 overflow
check on off + n, the clamp to MAXFILE * BSIZE, and the copy loop. -/
def writei (maxbytes : Nat) (alloc : Nat → Bool) (isDev : Bool) (off n : Nat) :
    Int × Nat × Bool :=
  if isDev then
    (-1, 0, false)
  else if (off + n) % U32 < off then
    (-1, 0, false)
  else
    writeiLoop alloc (writei_clamped_n maxbytes off n) off 0

/-- Helper: whenever the copy loop ends because of out_of_blocks, it returns
-1 when no byte was written and the byte count when at least one was. -/
theorem writeiLoop_oob (alloc : Nat → Bool) (n off tot : Nat) (r : Int) (w : Nat)
    (h : writeiLoop alloc n off tot = (r, w, true)) :
    (w = 0 ∧ r = -1) ∨ (0 < w ∧ r = (w : Int)) := by
  rw [writeiLoop] at h
  split at h
  · simp only [] at h
    split at h
    · exact writeiLoop_oob alloc n _ _ r w h
    · by_cases h0 : tot = 0
      · subst h0
        simp at h
        left
        exact ⟨h.2.symm, h.1.symm⟩
      · simp [h0] at h
        right
        refine ⟨?_, ?_⟩
        · omega
        · rw [← h.2, ← h.1]
  · exact absurd h (by simp)
termination_by n - tot
decreasing_by
  simp_wf
  have hB : BSIZE = 4096 := rfl
  have hmod : off % BSIZE < BSIZE := Nat.mod_lt off (by rw [hB]; omega)
  omega

/-- Claim C4: whenever writei hits the out-of-blocks condition while
allocating a block, it returns the number of bytes written so far when that
number is positive, and -1 when no byte was written yet. -/
theorem writei_out_of_blocks (maxbytes : Nat) (alloc : Nat → Bool) (isDev : Bool)
    (off n : Nat) (r : Int) (w : Nat)
    (h : writei maxbytes alloc isDev off n = (r, w, true)) :
    (w = 0 ∧ r = -1) ∨ (0 < w ∧ r = (w : Int)) := by
  unfold writei at h
  split at h
  · exact absurd h (by simp)
  · split at h
    · exact absurd h (by simp)
    · exact writeiLoop_oob alloc _ off 0 r w h

theorem writei_out_of_blocks_witness :
    writei 16384 (fun i => decide (i = 0)) false 0 8192 = (4096, 4096, true) ∧
    ((4096 = 0 ∧ (4096 : Int) = -1) ∨ (0 < 4096 ∧ (4096 : Int) = ((4096 : Nat) : Int))) := by
  have hev : writei 16384 (fun i => decide (i = 0)) false 0 8192 = (4096, 4096, true) := by
    rw [writei]
    norm_num [U32, writei_clamped_n]
    rw [writeiLoop]
    norm_num [BSIZE]
    rw [writeiLoop]
    norm_num [BSIZE]
  exact ⟨hev, writei_out_of_blocks 16384 (fun i => decide (i = 0)) false 0 8192 4096 4096 hev⟩

/-- Claim C5: with off + n free of u32 overflow and off within the file-size
cap, a write with off + n at most MAXFILE * BSIZE keeps its full length n (a
write ending exactly at the cap is not clamped), a write with off + n beyond
the cap is truncated to exactly MAXFILE * BSIZE - off bytes, and the copy
loop of writei is run with exactly that clamped length. -/
theorem writei_maxfile_clamp (maxbytes off n : Nat) (alloc : Nat → Bool)
    (hov : off + n < U32) (hoff : off ≤ maxbytes) :
    (off + n ≤ maxbytes → writei_clamped_n maxbytes off n = n) ∧
    (maxbytes < off + n → writei_clamped_n maxbytes off n = maxbytes - off) ∧
    (writei maxbytes alloc false off n =
      writeiLoop alloc (writei_clamped_n maxbytes off n) off 0) := by
  have hmod : (off + n) % U32 = off + n := Nat.mod_eq_of_lt hov
  refine ⟨?_, ?_, ?_⟩
  · intro hle
    have hcond : ¬ maxbytes < (off + n) % U32 := by
      rw [hmod]
      omega
    simp [writei_clamped_n, hcond]
  · intro hgt
    have hcond : maxbytes < (off + n) % U32 := by
      rw [hmod]
      exact hgt
    have hlt : (maxbytes : Int) - (off : Int) < (U32 : Int) := by
      have : maxbytes < U32 := by omega
      omega
    have hsub : ((maxbytes : Int) - (off : Int)) % (U32 : Int) =
        (maxbytes : Int) - (off : Int) := by
      apply Int.emod_eq_of_lt
      · omega
      · exact hlt
    simp only [writei_clamped_n, if_pos hcond, hsub]
    omega
  · unfold writei
    have hguard : ¬ ((off + n) % U32 < off) := by
      rw [hmod]
      omega
    simp [hguard]

theorem writei_maxfile_clamp_witness :
    writei_clamped_n 8192 4096 4096 = 4096 ∧
    writei_clamped_n 8192 8000 400 = 8192 - 8000 :=
  ⟨(writei_maxfile_clamp 8192 4096 4096 (fun _ => true) (by norm_num [U32])
      (by norm_num)).1 (by norm_num),
   (writei_maxfile_clamp 8192 8000 400 (fun _ => true) (by norm_num [U32])
      (by norm_num)).2.1 (by norm_num)⟩

/-! ## Rename pairs (mfs_interface::apply_rename_pair, scalefs.cc:583)

Oplog operations are modelled by their variant and timestamp; the mnum and
name payloads play no role in the claims. An oplog is the timestamp-ordered
operation_vec of an mfs_logical_log (front = next operation to apply).

The source looks up mfs_log_src from src_parent_mnum and, ONLY when
dst_parent_mnum differs from src_parent_mnum, looks up mfs_log_dst from
dst_parent_mnum; when the two mnums coincide (a rename within one
directory) the local mfs_log_dst is never assigned, yet it is dereferenced
by synchronize_upto_tsc, the emptiness check, the front read and the erase.
The oplogs reached through the two pointers are therefore modelled by a sum:
either the two mnums coincide and there is one shared oplog, or they differ
and there are two independent oplogs. -/

inductive MfsOp where
  | create (ts : Nat)
  | link (ts : Nat)
  | unlink (ts : Nat)
  | renameBarrier (ts : Nat)
  | renameLink (ts : Nat)
  | renameUnlink (ts : Nat)
  | delete (ts : Nat)
deriving DecidableEq

/-- The transaction built by apply_rename_pair: its timestamp and the
operations applied into it, in application order. -/
structure RenameTx where
  timestamp : Nat
  ops : List MfsOp
deriving DecidableEq

/-- The oplogs a rename pair touches, as the source addresses them through
mfs_log_src and mfs_log_dst: one shared oplog when
src_parent_mnum = dst_parent_mnum, two independent oplogs otherwise. -/
inductive RenameLogs where
  | same (log : List MfsOp)
  | distinct (srcLog dstLog : List MfsOp)
deriving DecidableEq

/-- Embeds mfs_interface::apply_rename_pair for the rename_metadata
timestamp ts. In the same-directory case (dst_mnum = src_mnum) the branch
at scalefs.cc:609 skips the assignment of mfs_log_dst, which the function
then dereferences while still uninitialized (scalefs.cc:618, 628, 632,
655); that execution has no defined result, which the embedding records as
none. In the distinct case the source checks that both operation_vecs are
nonempty, dynamic_casts the front of the destination log to rename_link and
the front of the source log to rename_unlink, and checks that their
timestamps agree with each other and with ts; that is exactly the pattern
match plus the condition below. On success both fronts are erased and one
transaction carrying both operations is built (the link applied first, then
the unlink); otherwise both logs are left untouched and no transaction is
made. -/
def apply_rename_pair (ts : Nat) (logs : RenameLogs) :
    Option (RenameLogs × Option RenameTx) :=
  match logs with
  | RenameLogs.same _ => none
  | RenameLogs.distinct (MfsOp.renameUnlink uts :: st) (MfsOp.renameLink lts :: dt) =>
    if lts = uts ∧ lts = ts then
      some (RenameLogs.distinct st dt,
            some ⟨lts, [MfsOp.renameLink lts, MfsOp.renameUnlink uts]⟩)
    else
      some (RenameLogs.distinct (MfsOp.renameUnlink uts :: st)
              (MfsOp.renameLink lts :: dt), none)
  | RenameLogs.distinct srcLog dstLog => some (RenameLogs.distinct srcLog dstLog, none)

/-- The success condition of apply_rename_pair: the front of the destination
oplog is the rename_link and the front of the source oplog is the
rename_unlink of the rename with timestamp ts. -/
def rename_pair_ready (ts : Nat) (srcLog dstLog : List MfsOp) : Prop :=
  dstLog.head? = some (MfsOp.renameLink ts) ∧ srcLog.head? = some (MfsOp.renameUnlink ts)

/-- Cross-directory case: when the two parent directories differ,
apply_rename_pair is all-or-nothing. When the fronts of the two oplogs are
the matching halves of the rename with timestamp ts, both are erased and
both are applied within one single transaction; when either oplog is empty
or the fronts no longer match, nothing is applied and both oplogs are left
unchanged. -/
theorem apply_rename_pair_distinct_atomic (ts : Nat) (src dst : List MfsOp) :
    (rename_pair_ready ts src dst →
      apply_rename_pair ts (RenameLogs.distinct src dst) =
        some (RenameLogs.distinct src.tail dst.tail,
              some ⟨ts, [MfsOp.renameLink ts, MfsOp.renameUnlink ts]⟩)) ∧
    (¬ rename_pair_ready ts src dst →
      apply_rename_pair ts (RenameLogs.distinct src dst) =
        some (RenameLogs.distinct src dst, none)) := by
  constructor
  · rintro ⟨hd, hs⟩
    cases dst with
    | nil => simp at hd
    | cons d dt =>
      cases src with
      | nil => simp at hs
      | cons s st =>
        simp only [List.head?_cons, Option.some.injEq] at hd hs
        subst hd
        subst hs
        simp [apply_rename_pair]
  · intro hnot
    rw [apply_rename_pair.eq_def]
    split
    · next _ _ heq =>
      exact absurd heq (by simp)
    · next _ uts st lts dt heq =>
      injection heq with hsrc hdst
      subst hsrc
      subst hdst
      split_ifs with hc
      · exfalso
        apply hnot
        obtain ⟨h1, h2⟩ := hc
        subst h2
        subst h1
        exact ⟨rfl, rfl⟩
      · rfl
    · next _ srcLog dstLog _ heq =>
      injection heq with h1 h2
      rw [h1, h2]

/-- Claim C9 evaluated at the failing input: for a rename within one
directory (src_parent_mnum = dst_parent_mnum), apply_rename_pair
dereferences the uninitialized mfs_log_dst pointer and so has no defined
result at all (none): neither of the two outcomes the claim allows is
established, even with the matching rename pair pending in the shared
oplog. For distinct parent directories the all-or-nothing behavior the
claim describes does hold: with the matching pair at the two fronts both
are erased and applied in one transaction, and with a half missing both
oplogs come back unchanged with no transaction. -/
theorem apply_rename_pair_same_dir_undefined :
    (apply_rename_pair 9
        (RenameLogs.same [MfsOp.renameUnlink 9, MfsOp.renameLink 9]) = none) ∧
    (apply_rename_pair 9
        (RenameLogs.distinct [MfsOp.renameUnlink 9, MfsOp.create 1] [MfsOp.renameLink 9]) =
      some (RenameLogs.distinct [MfsOp.create 1] [],
            some ⟨9, [MfsOp.renameLink 9, MfsOp.renameUnlink 9]⟩)) ∧
    (apply_rename_pair 9 (RenameLogs.distinct [] [MfsOp.renameLink 9]) =
      some (RenameLogs.distinct [] [MfsOp.renameLink 9], none)) :=
  ⟨rfl, rfl, rfl⟩

/-! ## Inode allocation (ialloc and try_ialloc, fs.cc:239 and fs.cc:261)

The inode read/write lock is the pair (busy, readbusy) of the in-memory
inode; write-locked means busy = true. The sequential model assumes the
freshly claimed inode is uncontended, which is what ialloc relies on. The
on-disk state is abstracted to the type field per inum (0 = free), and the
cmpxchg from 0 to the requested type always succeeds in the sequential
model, so an inum is claimed exactly when its type field is 0. -/

structure ILock where
  busy : Bool
  readbusy : Nat
deriving DecidableEq

/-- Embeds ilock (fs.cc:539) for an uncontended inode: a writer sets busy,
and both writers and readers increment readbusy. -/
def ilock (writer : Bool) (s : ILock) : ILock :=
  if writer then
    ⟨true, s.readbusy + 1⟩
  else
    ⟨s.busy, s.readbusy + 1⟩

/-- Embeds iunlock (fs.cc:562): panics (none) when the inode is not locked
at all; otherwise decrements readbusy and clears busy. -/
def iunlock (s : ILock) : Option ILock :=
  if s.readbusy = 0 ∧ s.busy = false then
    none
  else
    some ⟨false, s.readbusy - 1⟩

/-- Embeds try_ialloc (fs.cc:239): fails when the on-disk type is nonzero
(the type check and the cmpxchg), panics (none) when the claimed inode is
not zeroed, and otherwise bumps gen under ilock(ip, 1) and calls iunlock
before returning. The result is the lock state of the returned inode. -/
def try_ialloc (dtype nlink size addr0 : Nat) : Option ILock :=
  if dtype ≠ 0 then
    none
  else if nlink ≠ 0 ∨ size ≠ 0 ∨ addr0 ≠ 0 then
    none
  else
    iunlock (ilock true ⟨false, 0⟩)

/-- Embeds the scan order of ialloc (fs.cc:261): inode numbers from
(last_inode + 1) % ninodes up to ninodes - 1, then (because of the
all_scanned wraparound branch) 1 up to ninodes - 1 again, skipping inum 0
throughout. -/
def iallocOrder (ninodes last : Nat) : List Nat :=
  (((List.range ninodes).drop ((last + 1) % ninodes)) ++ List.range ninodes).filter
    (fun i => i != 0)

/-- Embeds ialloc (fs.cc:261) over a zeroed on-disk image: the first inum in
scan order whose on-disk type is 0 is claimed through try_ialloc and
returned together with the lock state try_ialloc leaves it in. -/
def ialloc (ninodes last : Nat) (diskType : Nat → Nat) : Option (Nat × ILock) :=
  match (iallocOrder ninodes last).find? (fun i => diskType i == 0) with
  | none => none
  | some i => (try_ialloc (diskType i) 0 0 0).map (fun st => (i, st))

/-- Claim C6 evaluated at a failing input: ialloc does scan from
last_inode + 1 (wrapping once, skipping inum 0) and claims the first free
inode, but the inode is returned UNLOCKED: try_ialloc calls iunlock before
returning, so the returned lock state has busy = false and readbusy = 0,
not the write-locked state busy = true that the claim (and the comment
above ialloc in the source) promises. With ninodes = 4, last_inode = 0 and
all types free, inum 1 is claimed and comes back unlocked; with
last_inode = 2 and only inum 1 free, the scan wraps and still returns the
claimed inode unlocked. -/
theorem ialloc_returns_unlocked_inode :
    ialloc 4 0 (fun _ => 0) = some (1, ⟨false, 0⟩) ∧
    ialloc 4 2 (fun i => if i = 1 then 0 else 1) = some (1, ⟨false, 0⟩) := by
  constructor
  · rfl
  · rfl

end ScaleFS
